import Mathlib

/-!
Verification of the Reference Resolver and Search/Match Engine of the
IslamAwakened corpus browser.  The Python source (`code.py`) is shallowly
embedded here: the corpus data model (`DataLoader`), the reference parser
(`parse_reference`), the previous/next navigation helpers, the keyword
matchers and range-walking search of `show_verses`, and the notes overlay
persistence (`save_notes` / `load_notes`).

Python `str(int)` / `int(str)` conversions are modelled by `natToStr` /
`natOfStr`; Python dictionaries are modelled as insertion-ordered
association lists with overwrite-on-assignment semantics; Python regular
expressions produced by the source's wildcard translation
(`re.escape(w).replace(r'\*', '.*').replace(r'\?', '.')`) are modelled by
`Atom` pattern lists with an explicit matching function; `re.IGNORECASE`
is modelled by ASCII case folding, and `\w` / `\b` by ASCII word
characters and word boundaries.
-/

namespace IA

/-! ## Decimal digit strings (Python `int(...)` and `str(...)`) -/

/-- Numeric value of a decimal digit character. -/
def digitVal (c : Char) : Nat := c.toNat - 48

/-- Value of a list of decimal digit characters, as Python `int` reads it
(leading zeros allowed). -/
def natOfDigits (cs : List Char) : Nat :=
  cs.foldl (fun acc c => 10 * acc + digitVal c) 0

/-- Python `int(s)` on an all-digits string. -/
def natOfStr (s : String) : Nat := natOfDigits s.toList

/-- The decimal digit character for `d < 10`. -/
def digitChar (d : Nat) : Char := Char.ofNat (48 + d)

/-- Fuelled decimal rendering; fuel `n + 1` always suffices for `n`. -/
def natToStrAux : Nat → Nat → List Char
  | 0, _ => []
  | fuel + 1, n =>
    if n < 10 then [digitChar n]
    else natToStrAux fuel (n / 10) ++ [digitChar (n % 10)]

/-- Python `str(n)` for a natural number. -/
def natToStr (n : Nat) : String := String.mk (natToStrAux (n + 1) n)

/-! ## Association lists (Python `dict` with insertion order) -/

/-- Python `d.get(k)` / `k in d` lookup on an association list. -/
def alookup {α : Type} : List (String × α) → String → Option α
  | [], _ => none
  | (k, v) :: rest, key => if key = k then some v else alookup rest key

/-- Python `d[k] = v`: overwrite the first binding of `k` in place, or
append a new binding at the end (insertion order). -/
def setAssoc {α : Type} : List (String × α) → String → α → List (String × α)
  | [], k, v => [(k, v)]
  | (k', v') :: rest, k, v =>
    if k = k' then (k, v) :: rest else (k', v') :: setAssoc rest k v

/-- Python `set.add` on a set modelled as a duplicate-free list. -/
def addIfMissing (l : List String) (x : String) : List String :=
  if x ∈ l then l else l ++ [x]

/-- `max(l)` over a list of naturals, `0` when empty (Python's `max`
raises on an empty collection; the loader never produces one). -/
def listMax (l : List Nat) : Nat := l.foldl max 0

/-! ## Character classes and whitespace splitting -/

/-- ASCII model of Python's regex `\w` class. -/
def isWordChar (c : Char) : Bool := c.isAlphanum || c == '_'

/-- Accumulating splitter behind `splitWs`. -/
def splitWsAux : List Char → List Char → List (List Char)
  | [], acc => if acc = [] then [] else [acc.reverse]
  | c :: cs, acc =>
    if c.isWhitespace then
      if acc = [] then splitWsAux cs [] else acc.reverse :: splitWsAux cs []
    else splitWsAux cs (c :: acc)

/-- Python `str.split()`: split on whitespace runs, dropping empties. -/
def splitWs (s : String) : List String := (splitWsAux s.toList []).map String.mk

/-- Strip leading whitespace from a character list. -/
def trimLeft (cs : List Char) : List Char := cs.dropWhile Char.isWhitespace

/-- Python `str.strip()` on a character list. -/
def trimChars (cs : List Char) : List Char := (trimLeft cs.reverse).reverse |> trimLeft

/-- Python `str.strip()`. -/
def trimStr (s : String) : String := String.mk (trimChars s.toList)

/-! ## Wildcard patterns

The source compiles each keyword fragment with
`re.escape(w).replace(r'\*', '.*').replace(r'\?', '.')`: every character
other than `*` and `?` becomes a literal, `*` becomes `.*` and `?`
becomes `.`.  We model the compiled pattern as a list of atoms. -/

inductive Atom : Type where
  | lit (c : Char)
  | anyOne
  | anyRun
  deriving DecidableEq, Repr

/-- The wildcard translation applied by the source to a keyword fragment. -/
def translateAtoms (cs : List Char) : List Atom :=
  cs.map fun c => if c = '*' then Atom.anyRun else if c = '?' then Atom.anyOne else Atom.lit c

/-- `re.IGNORECASE` character comparison (ASCII case folding). -/
def lowerEq (c d : Char) : Bool := c.toLower == d.toLower

/-- Fuelled anchored matcher: does the pattern match some prefix of the
text?  `anyRun` (`.*`) may consume any run of characters. -/
def matchHereF : Nat → List Atom → List Char → Bool
  | 0, _, _ => false
  | _ + 1, [], _ => true
  | _ + 1, Atom.lit _ :: _, [] => false
  | _ + 1, Atom.anyOne :: _, [] => false
  | fuel + 1, Atom.anyRun :: ps, [] => matchHereF fuel ps []
  | fuel + 1, Atom.lit c :: ps, x :: xs => lowerEq c x && matchHereF fuel ps xs
  | fuel + 1, Atom.anyOne :: ps, _ :: xs => matchHereF fuel ps xs
  | fuel + 1, Atom.anyRun :: ps, x :: xs =>
    matchHereF fuel ps (x :: xs) || matchHereF fuel (Atom.anyRun :: ps) xs

/-- The pattern matches at the start of the text (any prefix length). -/
def matchHere (ps : List Atom) (xs : List Char) : Bool :=
  matchHereF (ps.length + xs.length + 1) ps xs

/-- `pattern.search(text)` for an unanchored compiled pattern: the pattern
matches starting at some position of the text. -/
def regexSearch (ps : List Atom) (xs : List Char) : Bool :=
  (List.range (xs.length + 1)).any fun i => matchHere ps (xs.drop i)

/-- Is the character at position `i - 1` of `xs` a word character?
(`false` at the left edge.) -/
def prevIsWord (xs : List Char) (i : Nat) : Bool :=
  match i with
  | 0 => false
  | j + 1 =>
    match xs.get? j with
    | some c => isWordChar c
    | none => false

/-- Is the character at position `i` of `xs` a word character?
(`false` at the right edge.) -/
def headIsWord : List Char → Bool
  | [] => false
  | c :: _ => isWordChar c

/-- Regex `\b`: position `i` of `xs` is a word boundary. -/
def boundaryAt (xs : List Char) (i : Nat) : Bool :=
  prevIsWord xs i != headIsWord (xs.drop i)

/-- `re.search` for the source's word patterns `\b{base}\w*`: the base
pattern matches at some word boundary (the trailing `\w*` never affects
whether a match exists). -/
def wbSearch (ps : List Atom) (xs : List Char) : Bool :=
  (List.range (xs.length + 1)).any fun i => boundaryAt xs i && matchHere ps (xs.drop i)

/-! ## Corpus data model (`DataLoader`)

`surahs : Dict[str, Set[str]]` maps a chapter number (as text) to the set
of its verse numbers (as text); `verses` maps chapter → verse →
translation → text; `translations` is the insertion-ordered list of
translation names.  Dictionaries become association lists, sets become
duplicate-free lists. -/

structure DataLoader : Type where
  surahs : List (String × List String)
  verses : List (String × List (String × List (String × String)))
  translations : List String
  deriving DecidableEq, Repr

/-- The verse-number set of a chapter (empty when absent). -/
def ayahsOf (dl : DataLoader) (s : String) : List String :=
  (alookup dl.surahs s).getD []

/-- `max(int(ayah) for ayah in surahs[s])`: the chapter's last verse
number, also the value of `ayah_counts[s]` (code line 1191). -/
def maxAyah (dl : DataLoader) (s : String) : Nat :=
  listMax ((ayahsOf dl s).map natOfStr)

/-- `k in d` for an association list. -/
def containsKey {α : Type} (l : List (String × α)) (k : String) : Bool :=
  (alookup l k).isSome

/-! ## Reference grammar (`parse_reference`, code lines 2089-2141)

The six anchored regular expressions over digits, one dot and one dash
are decided by a deterministic scanner: a maximal digit run followed by
the expected separator is exactly what each anchored regex accepts. -/

/-- Split off the maximal leading run of decimal digits. -/
def takeDigits : List Char → List Char × List Char
  | [] => ([], [])
  | c :: cs =>
    if c.isDigit then
      let p := takeDigits cs
      (c :: p.1, p.2)
    else ([], c :: cs)

/-- The six accepted reference forms, carrying the matched digit groups. -/
inductive RefForm : Type where
  | singleSurah (n : List Char)
  | surahRange (n m : List Char)
  | verseSingle (n v : List Char)
  | verseToAyah (n v e : List Char)
  | surahToVerse (n m w : List Char)
  | verseRange (n v m w : List Char)
  deriving DecidableEq, Repr

/-- `^(\d+)$` -/
def form1 (cs : List Char) : Option RefForm :=
  let p := takeDigits cs
  if p.1 ≠ [] ∧ p.2 = [] then some (RefForm.singleSurah p.1) else none

/-- `^(\d+)-(\d+)$` -/
def form2 (cs : List Char) : Option RefForm :=
  let p := takeDigits cs
  match p.2 with
  | c :: r2 =>
    if c = '-' then
      let q := takeDigits r2
      if p.1 ≠ [] ∧ q.1 ≠ [] ∧ q.2 = [] then some (RefForm.surahRange p.1 q.1) else none
    else none
  | [] => none

/-- `^(\d+)\.(\d+)$` -/
def form3 (cs : List Char) : Option RefForm :=
  let p := takeDigits cs
  match p.2 with
  | c :: r2 =>
    if c = '.' then
      let q := takeDigits r2
      if p.1 ≠ [] ∧ q.1 ≠ [] ∧ q.2 = [] then some (RefForm.verseSingle p.1 q.1) else none
    else none
  | [] => none

/-- `^(\d+)\.(\d+)-(\d+)$` -/
def form4 (cs : List Char) : Option RefForm :=
  let p := takeDigits cs
  match p.2 with
  | c :: r2 =>
    if c = '.' then
      let q := takeDigits r2
      match q.2 with
      | d :: r3 =>
        if d = '-' then
          let t := takeDigits r3
          if p.1 ≠ [] ∧ q.1 ≠ [] ∧ t.1 ≠ [] ∧ t.2 = [] then
            some (RefForm.verseToAyah p.1 q.1 t.1)
          else none
        else none
      | [] => none
    else none
  | [] => none

/-- `^(\d+)-(\d+)\.(\d+)$` -/
def form5 (cs : List Char) : Option RefForm :=
  let p := takeDigits cs
  match p.2 with
  | c :: r2 =>
    if c = '-' then
      let q := takeDigits r2
      match q.2 with
      | d :: r3 =>
        if d = '.' then
          let t := takeDigits r3
          if p.1 ≠ [] ∧ q.1 ≠ [] ∧ t.1 ≠ [] ∧ t.2 = [] then
            some (RefForm.surahToVerse p.1 q.1 t.1)
          else none
        else none
      | [] => none
    else none
  | [] => none

/-- `^(\d+)\.(\d+)-(\d+)\.(\d+)$` -/
def form6 (cs : List Char) : Option RefForm :=
  let p := takeDigits cs
  match p.2 with
  | c :: r2 =>
    if c = '.' then
      let q := takeDigits r2
      match q.2 with
      | d :: r3 =>
        if d = '-' then
          let t := takeDigits r3
          match t.2 with
          | e :: r4 =>
            if e = '.' then
              let u := takeDigits r4
              if p.1 ≠ [] ∧ q.1 ≠ [] ∧ t.1 ≠ [] ∧ u.1 ≠ [] ∧ u.2 = [] then
                some (RefForm.verseRange p.1 q.1 t.1 u.1)
              else none
            else none
          | [] => none
        else none
      | [] => none
    else none
  | [] => none

/-- Try the six anchored forms in the source's `elif` order. -/
def matchForm (cs : List Char) : Option RefForm :=
  match form1 cs with
  | some f => some f
  | none =>
    match form2 cs with
    | some f => some f
    | none =>
      match form3 cs with
      | some f => some f
      | none =>
        match form4 cs with
        | some f => some f
        | none =>
          match form5 cs with
          | some f => some f
          | none => form6 cs

/-- The `ValueError`s raised by `parse_reference`. -/
inductive RefError : Type where
  /-- "Invalid reference format …" (no grammar form matched). -/
  | invalidFormat
  /-- "Surah {s} not found" (form `N.0` with chapter `N` absent). -/
  | surahNotFound (s : String)
  /-- "Surah {s} or {e} not found" (final chapter-existence check). -/
  | surahPairNotFound (s e : String)
  deriving DecidableEq, Repr

/-- Both error kinds that name a missing chapter. -/
def isNotFoundErr : RefError → Bool
  | RefError.invalidFormat => false
  | RefError.surahNotFound _ => true
  | RefError.surahPairNotFound _ _ => true

/-- The final existence check of `parse_reference` (code lines 2139-2141). -/
def checkChapters (dl : DataLoader) (ss sa se ea : String) :
    Except RefError (String × String × String × String) :=
  if containsKey dl.surahs ss ∧ containsKey dl.surahs se then Except.ok (ss, sa, se, ea)
  else Except.error (RefError.surahPairNotFound ss se)

/-- `str(max(...) if s in surahs else 0)`: the end-verse text used by the
whole-chapter forms. -/
def endAyahText (dl : DataLoader) (s : String) : String :=
  if containsKey dl.surahs s then natToStr (maxAyah dl s) else "0"

/-- `parse_reference` (code lines 2089-2141): resolve a reference string
into `(surah_start, start_ayah, surah_end, end_ayah)` text fields. -/
def parse_reference (dl : DataLoader) (ref : String) :
    Except RefError (String × String × String × String) :=
  match matchForm ref.toList with
  | none => Except.error RefError.invalidFormat
  | some (RefForm.singleSurah n) =>
    let ss := String.mk n
    checkChapters dl ss "1" ss (endAyahText dl ss)
  | some (RefForm.surahRange n m) =>
    let ss := String.mk n
    let se := String.mk m
    checkChapters dl ss "1" se (endAyahText dl se)
  | some (RefForm.verseSingle n v) =>
    let ss := String.mk n
    let sa := String.mk v
    if sa = "0" then
      if containsKey dl.surahs ss then
        checkChapters dl ss "1" ss (natToStr (maxAyah dl ss))
      else Except.error (RefError.surahNotFound ss)
    else checkChapters dl ss sa ss sa
  | some (RefForm.verseToAyah n v e) =>
    let ss := String.mk n
    let sa := String.mk v
    if natOfDigits e ≤ natOfDigits n then
      checkChapters dl ss sa ss (String.mk e)
    else
      let se := String.mk e
      checkChapters dl ss sa se (endAyahText dl se)
  | some (RefForm.surahToVerse n m w) =>
    checkChapters dl (String.mk n) "1" (String.mk m) (String.mk w)
  | some (RefForm.verseRange n v m w) =>
    checkChapters dl (String.mk n) (String.mk v) (String.mk m) (String.mk w)

/-- The chapter strings whose existence the final check of
`parse_reference` will test, for a matched form. -/
def formChapters : RefForm → String × String
  | RefForm.singleSurah n => (String.mk n, String.mk n)
  | RefForm.surahRange n m => (String.mk n, String.mk m)
  | RefForm.verseSingle n _ => (String.mk n, String.mk n)
  | RefForm.verseToAyah n _ e =>
    if natOfDigits e ≤ natOfDigits n then (String.mk n, String.mk n)
    else (String.mk n, String.mk e)
  | RefForm.surahToVerse n m _ => (String.mk n, String.mk m)
  | RefForm.verseRange n _ m _ => (String.mk n, String.mk m)

/-- Both endpoint chapters of a matched form exist in the corpus. -/
def chaptersOK (dl : DataLoader) (f : RefForm) : Bool :=
  containsKey dl.surahs (formChapters f).1 && containsKey dl.surahs (formChapters f).2

/-! ## Navigation helpers (code lines 2143-2167) -/

/-- `get_previous_verse` (code lines 2143-2154). -/
def get_previous_verse (dl : DataLoader) (surah ayah : String) : Option (String × String) :=
  let surahInt := natOfStr surah
  let ayahInt := natOfStr ayah
  if ayahInt > 1 then some (surah, natToStr (ayahInt - 1))
  else if surahInt > 1 then
    let prevSurah := natToStr (surahInt - 1)
    some (prevSurah, natToStr (maxAyah dl prevSurah))
  else none

/-- `get_next_verse` (code lines 2156-2167). -/
def get_next_verse (dl : DataLoader) (surah ayah : String) : Option (String × String) :=
  let surahInt := natOfStr surah
  let ayahInt := natOfStr ayah
  let maxA := maxAyah dl surah
  if ayahInt < maxA then some (surah, natToStr (ayahInt + 1))
  else if surahInt < 114 then some (natToStr (surahInt + 1), "1")
  else none

/-! ## Keyword compilation and matching (`show_verses`, code lines 2273-2311)

The local `keyword` has already been stripped and lowercased by the
caller (`self.keyword_var.get().strip().lower()`); the definitions below
take it in that form. -/

/-- `keyword.startswith('"')`. -/
def startsQuote (s : String) : Bool :=
  match s.toList with
  | [] => false
  | c :: _ => c = '"'

/-- `keyword.endswith('"')`. -/
def endsQuote (s : String) : Bool :=
  match s.toList.getLast? with
  | none => false
  | some c => c = '"'

/-- `keyword[1:-1]`: the characters between the quotes. -/
def phraseChars (s : String) : List Char := (s.toList.drop 1).dropLast

/-- Compile the keyword (code lines 2273-2285) into
`(phrase_pattern, patterns)`: a quoted keyword yields one unanchored
phrase pattern, any other keyword yields one word pattern per
whitespace-separated fragment.  An empty keyword compiles to nothing. -/
def compileKeyword (kw : String) : Option (List Atom) × List (List Atom) :=
  if kw ≠ "" then
    if startsQuote kw && endsQuote kw then
      (some (translateAtoms (phraseChars kw)), [])
    else
      (none, (splitWs kw).map fun w => translateAtoms w.toList)
  else (none, [])

/-- Per-translation match test (code lines 2304-2311): the phrase
pattern, when compiled, must be found anywhere; otherwise every word
pattern must be found at a word boundary. -/
def textMatchesC (c : Option (List Atom) × List (List Atom)) (text : String) : Bool :=
  match c.1 with
  | some ps => regexSearch ps text.toList
  | none =>
    if c.2 ≠ [] then c.2.all fun ps => wbSearch ps text.toList
    else false

/-! ## Range walk and hit construction (`show_verses`, code lines 2287-2340) -/

/-- A displayed verse: chapter, verse, the display translation list
(`display_translations`), the rendered `(translation, text)` entries, and
the translations that satisfied the keyword (`matching_translations`). -/
structure Hit : Type where
  surah : String
  ayah : String
  display : List String
  entries : List (String × String)
  matching : List String
  deriving DecidableEq, Repr

/-- `display_translations` (code lines 2324-2328): a copy of the
selection, extended — only when both broad flags are set — with each
matching translation not already present. -/
def augmentDisplay (selected matching : List String) (broadSearch broadResults : Bool) :
    List String :=
  if broadSearch && broadResults then
    matching.foldl (fun acc tr => if tr ∈ acc then acc else acc ++ [tr]) selected
  else selected

/-- Python `range(a, b + 1)` as a list. -/
def rangeIncl (a b : Nat) : List Nat := (List.range (b + 1 - a)).map (a + ·)

/-- Process one verse of the walk (code lines 2293-2340): decide the
match, collect the matching translations, build the display set and keep
the verse only when some displayed translation has text (`has_content`). -/
def processAyah (comp : Option (List Atom) × List (List Atom)) (kwPresent : Bool)
    (isSingle : Bool) (toCheck selected : List String) (broadSearch broadResults : Bool)
    (surah : String) (smap : List (String × List (String × String))) (ayahN : Nat) :
    Option Hit :=
  let ayahStr := natToStr ayahN
  match alookup smap ayahStr with
  | none => none
  | some vtexts =>
    let matching : List String :=
      if isSingle then []
      else if kwPresent then
        toCheck.filter fun tr =>
          match alookup vtexts tr with
          | some text => textMatchesC comp text
          | none => false
      else []
    let verseMatch : Bool :=
      if isSingle then true
      else if kwPresent then matching ≠ []
      else true
    if verseMatch then
      let disp := augmentDisplay selected matching broadSearch broadResults
      let entries := disp.filterMap fun tr => (alookup vtexts tr).map fun t => (tr, t)
      if entries ≠ [] then some ⟨surah, ayahStr, disp, entries, matching⟩ else none
    else none

/-- Process one chapter of the walk (code lines 2287-2292): skip chapters
absent from `verses`, and compute the verse span — the start verse on the
first chapter, the end verse on the last, the full corpus span between. -/
def chapterHits (dl : DataLoader) (comp : Option (List Atom) × List (List Atom))
    (kwPresent isSingle : Bool) (toCheck selected : List String)
    (broadSearch broadResults : Bool) (startSurah endSurah startA endA : Nat)
    (num : Nat) : List Hit :=
  let surah := natToStr num
  match alookup dl.verses surah with
  | none => []
  | some smap =>
    let a0 := if num = startSurah then startA else 1
    let a1 := if num = endSurah then endA else maxAyah dl surah
    (rangeIncl a0 a1).filterMap
      (processAyah comp kwPresent isSingle toCheck selected broadSearch broadResults surah smap)

/-- The search walk of `show_verses` (code lines 2252-2340) applied to an
already-resolved range: `keyword` is the stripped, lowercased keyword
field, `selected` the selected translation names.  Yields the displayed
verses in chapter-then-verse order. -/
def searchRange (dl : DataLoader) (surahStart startAyah surahEnd endAyah keyword : String)
    (selected : List String) (broadSearch broadResults : Bool) : List Hit :=
  let isSingle : Bool := surahStart == surahEnd && startAyah == endAyah
  let toCheck := if broadSearch then dl.translations else selected
  let comp := compileKeyword keyword
  let startSurah := natOfStr surahStart
  let endSurah := natOfStr surahEnd
  (rangeIncl startSurah endSurah).flatMap
    (chapterHits dl comp (keyword ≠ "") isSingle toCheck selected broadSearch broadResults
      startSurah endSurah (natOfStr startAyah) (natOfStr endAyah))

/-! ## Notes overlay persistence (`save_notes` 1972-2002, `load_notes` 1195-1219)

The persisted `notes.xml` document is modelled structurally: a list of
chapters, each carrying its number and its list of `(verse number, note
text)` renditions under the fixed source label `"User Notes"`.  The file
on disk is `Option NotesDoc` (`none` = no file). -/

/-- The structured shape of `notes.xml`. -/
abbrev NotesDoc : Type := List (String × List (String × String))

/-- `surah, ayah = ref.split(".")`: split a note key at its dot.  The
keys are produced by the source as `f"{surah}.{ayah}"`, so they contain
exactly one dot; other shapes yield `none`. -/
def splitRef (cs : List Char) : Option (List Char × List Char) :=
  match cs with
  | [] => none
  | c :: rest =>
    if c = '.' then
      if '.' ∈ rest then none else some ([], rest)
    else
      match splitRef rest with
      | some (pre, post) => some (c :: pre, post)
      | none => none

/-- Insert one note into the nested `surah_notes` grouping
(code lines 1982-1987). -/
def insertGrouped (m : List (String × List (String × String))) (s a t : String) :
    List (String × List (String × String)) :=
  match alookup m s with
  | none => setAssoc m s [(a, t)]
  | some inner => setAssoc m s (setAssoc inner a t)

/-- Group the flat notes mapping by chapter (code lines 1982-1987).
Keys that do not split as `surah.ayah` would raise in the source and are
skipped here; the source only ever stores well-formed keys. -/
def groupNotes (notes : List (String × String)) : List (String × List (String × String)) :=
  notes.foldl
    (fun acc p =>
      match splitRef p.1.toList with
      | some (s, a) => insertGrouped acc (String.mk s) (String.mk a) p.2
      | none => acc)
    []

/-- Stable insertion by numeric key (`sorted(keys, key=int)`). -/
def insertByNum {α : Type} (p : String × α) : List (String × α) → List (String × α)
  | [] => [p]
  | q :: rest =>
    if natOfStr p.1 < natOfStr q.1 then p :: q :: rest else q :: insertByNum p rest

/-- Sort an association list ascending by numeric key. -/
def sortByNum {α : Type} (l : List (String × α)) : List (String × α) :=
  l.foldr insertByNum []

/-- The document written by `save_notes` (code lines 1979-1999): chapters
ascending numerically, each chapter's verses ascending numerically. -/
def buildDoc (notes : List (String × String)) : NotesDoc :=
  (sortByNum (groupNotes notes)).map fun p => (p.1, sortByNum p.2)

/-- `save_notes` as a file-state transformer (code lines 1972-2002): an
empty overlay returns immediately and leaves the file untouched
(the deletion of `notes.xml` is commented out in the source); otherwise
the grouped, sorted document is written. -/
def save_notes_fs (notes : List (String × String)) (fs : Option NotesDoc) : Option NotesDoc :=
  if notes = [] then fs else some (buildDoc notes)

/-- Lines 1203-1206 of `load_notes`: ensure the chapter has entries in
`surahs` and `verses`. -/
def ensureSurah (dl : DataLoader) (s : String) : DataLoader :=
  { dl with
    surahs := if containsKey dl.surahs s then dl.surahs else dl.surahs ++ [(s, [])],
    verses := if containsKey dl.verses s then dl.verses else dl.verses ++ [(s, [])] }

/-- Lines 1207-1215 of `load_notes`: record one note rendition — add the
verse number to the chapter's set and store the stripped text under
`"User Notes"`. -/
def addNote (dl : DataLoader) (s a t : String) : DataLoader :=
  { dl with
    surahs := setAssoc dl.surahs s (addIfMissing (ayahsOf dl s) a),
    verses :=
      let smap := (alookup dl.verses s).getD []
      let vtexts := (alookup smap a).getD []
      setAssoc dl.verses s (setAssoc smap a (setAssoc vtexts "User Notes" (trimStr t))) }

/-- `load_notes` applied to a parsed document (code lines 1195-1219):
merge every note into the corpus, then make `"User Notes"` the first
translation if it is new. -/
def load_notes_doc (doc : NotesDoc) (dl : DataLoader) : DataLoader :=
  let dl' := doc.foldl
    (fun acc p => (p.2.foldl (fun acc2 q => addNote acc2 p.1 q.1 q.2) (ensureSurah acc p.1)))
    dl
  if "User Notes" ∈ dl'.translations then dl'
  else { dl' with translations := "User Notes" :: dl'.translations }

/-- `load_notes` including the missing-file check (code line 1197): a
missing file leaves the corpus unchanged. -/
def load_notes_fs (fs : Option NotesDoc) (dl : DataLoader) : DataLoader :=
  match fs with
  | none => dl
  | some doc => load_notes_doc doc dl

/-- The note text stored for `(c, v)` under the `"User Notes"`
pseudo-translation. -/
def lookupNote (dl : DataLoader) (c v : String) : Option String :=
  match alookup dl.verses c with
  | none => none
  | some smap =>
    match alookup smap v with
    | none => none
    | some vtexts => alookup vtexts "User Notes"

/-! ## Specification-side definitions -/

/-- Modelled from the spec: a resolved range `(ss, sa, se, ea)` has
`start ≤ end` lexicographically over (chapter, verse). -/
def rangeStartLE (r : String × String × String × String) : Bool :=
  natOfStr r.1 < natOfStr r.2.2.1 ||
    (natOfStr r.1 == natOfStr r.2.2.1 && natOfStr r.2.1 ≤ natOfStr r.2.2.2)

/-! ## Concrete fixture corpora -/

/-- A small corpus for resolver checks: chapters 1 (3 verses), 3
(7 verses) and 10 (4 verses). -/
def fxRef : DataLoader :=
  { surahs := [("1", ["1", "2", "3"]),
               ("3", ["1", "2", "3", "4", "5", "6", "7"]),
               ("10", ["1", "2", "3", "4"])],
    verses := [],
    translations := [] }

/-- A small corpus for search checks: one chapter with three verses in
two translations. -/
def fxSearch : DataLoader :=
  { surahs := [("1", ["1", "2", "3"])],
    verses := [("1",
      [("1", [("T1", "In the name"), ("T2", "He has sent messengers before")]),
       ("2", [("T1", "crescenting moonscape")]),
       ("3", [("T2", "the crescent moons shine")])])],
    translations := ["T1", "T2"] }

/-- A corpus with all 114 chapters, three verses each, for the
navigation checks. -/
def fx114 : DataLoader :=
  { surahs := (List.range 114).map fun i => (natToStr (i + 1), ["1", "2", "3"]),
    verses := [],
    translations := [] }

example : natToStr 114 = "114" := rfl

example : natOfStr "007" = 7 := rfl

example : parse_reference fxRef "3.5-2" = Except.ok ("3", "5", "3", "2") := rfl

example : parse_reference fxRef "3.5-10" = Except.ok ("3", "5", "10", "4") := rfl

example : parse_reference fxRef "1" = Except.ok ("1", "1", "1", "3") := rfl

example : parse_reference fxRef "3.0" = Except.ok ("3", "1", "3", "7") := rfl

example : parse_reference fxRef "1-3.5" = Except.ok ("1", "1", "3", "5") := rfl

example : parse_reference fxRef "3.2-10.1" = Except.ok ("3", "2", "10", "1") := rfl

example : parse_reference fxRef "999" =
    Except.error (RefError.surahPairNotFound "999" "999") := rfl

example : parse_reference fxRef "abc" = Except.error RefError.invalidFormat := rfl

example : get_previous_verse fx114 "57" "1" = some ("56", "3") := rfl

example : get_next_verse fx114 "114" "3" = none := rfl

example :
    (searchRange fxSearch "1" "1" "1" "3" "crescent moons" ["T1"] false false).map
      Hit.ayah = ["2"] := rfl

example :
    (searchRange fxSearch "1" "1" "1" "3" "crescent moons" ["T1", "T2"] false false).map
      Hit.ayah = ["2", "3"] := rfl

/-! ## Search lemmas -/

/-- An unanchored search succeeds exactly when the pattern matches at
some position of the text. -/
theorem regexSearch_iff (ps : List Atom) (xs : List Char) :
    regexSearch ps xs = true ↔ ∃ i, i ≤ xs.length ∧ matchHere ps (xs.drop i) = true := by
  simp [regexSearch, List.any_eq_true, List.mem_range, Nat.lt_succ_iff]

/-- A word-pattern search succeeds exactly when the base pattern matches
at some word boundary of the text. -/
theorem wbSearch_iff (ps : List Atom) (xs : List Char) :
    wbSearch ps xs = true ↔
      ∃ i, i ≤ xs.length ∧ (boundaryAt xs i && matchHere ps (xs.drop i)) = true := by
  simp [wbSearch, List.any_eq_true, List.mem_range, Nat.lt_succ_iff]

/-- A keyword that starts with a quote is nonempty. -/
theorem startsQuote_ne_empty {kw : String} (h : startsQuote kw = true) : kw ≠ "" := by
  intro hkw
  subst hkw
  simp [startsQuote] at h

/-- C3: a keyword whose trimmed text is wrapped in double quotes is a
phrase matcher: after the wildcard translation (`*` → any run, `?` →
exactly one character) the quoted text matches a translation's text iff
it occurs at some position of it, matched case-insensitively. -/
theorem phrase_matcher_substring (kw text : String)
    (h1 : startsQuote kw = true) (h2 : endsQuote kw = true) :
    textMatchesC (compileKeyword kw) text = true ↔
      ∃ i, i ≤ text.toList.length ∧
        matchHere (translateAtoms (phraseChars kw)) (text.toList.drop i) = true := by
  have hne : kw ≠ "" := startsQuote_ne_empty h1
  rw [show compileKeyword kw = (some (translateAtoms (phraseChars kw)), []) by
    simp [compileKeyword, hne, h1, h2]]
  simpa [textMatchesC] using regexSearch_iff (translateAtoms (phraseChars kw)) text.toList

/-- C3 witness: the phrase `"sent messengers"` is found inside a text
containing that substring. -/
theorem phrase_matcher_substring_witness :
    textMatchesC (compileKeyword "\"sent messengers\"") "He has sent messengers before" =
      true :=
  (phrase_matcher_substring "\"sent messengers\"" "He has sent messengers before"
      (by decide) (by decide)).mpr ⟨7, by decide, by decide⟩

/-- C2: a non-quoted keyword is a word-list matcher: it is split on
whitespace into tokens, each token gets the wildcard translation, and a
translation's text matches iff every token's pattern matches
case-insensitively at some word boundary of the text (each token at its
own position, so different tokens may match different words; the match
may be followed by further word characters, the source's trailing
`\w*`). -/
theorem wordlist_matcher (kw text : String) (hkw : kw ≠ "")
    (hq : ¬(startsQuote kw = true ∧ endsQuote kw = true))
    (hts : splitWs kw ≠ []) :
    textMatchesC (compileKeyword kw) text = true ↔
      ∀ tok ∈ splitWs kw, ∃ i, i ≤ text.toList.length ∧
        (boundaryAt text.toList i &&
          matchHere (translateAtoms tok.toList) (text.toList.drop i)) = true := by
  have hb : (startsQuote kw && endsQuote kw) = false := by
    rcases h1 : startsQuote kw <;> rcases h2 : endsQuote kw <;> simp_all
  rw [show compileKeyword kw = (none, (splitWs kw).map fun w => translateAtoms w.toList) by
    simp [compileKeyword, hkw, hb]]
  have hmapne : ((splitWs kw).map fun w => translateAtoms w.toList) ≠ [] := by
    simpa using hts
  simp only [textMatchesC, if_pos hmapne, List.all_eq_true, List.mem_map]
  constructor
  · intro h tok htok
    exact (wbSearch_iff _ _).mp (h _ ⟨tok, htok, rfl⟩)
  · rintro h ps ⟨tok, htok, rfl⟩
    exact (wbSearch_iff _ _).mpr (h tok htok)

/-- C2 witness: `crescent moons` matches `crescenting moonscape` by the
prefix rule, with the two tokens matching two different words. -/
theorem wordlist_matcher_witness :
    textMatchesC (compileKeyword "crescent moons") "crescenting moonscape" = true :=
  (wordlist_matcher "crescent moons" "crescenting moonscape" (by decide) (by decide)
      (by decide)).mpr
    (by
      intro tok htok
      have h : tok = "crescent" ∨ tok = "moons" := by
        have hsp : splitWs "crescent moons" = ["crescent", "moons"] := rfl
        rw [hsp] at htok
        simpa using htok
      rcases h with h | h <;> subst h
      · exact ⟨0, by decide, by decide⟩
      · exact ⟨12, by decide, by decide⟩)

/-- Membership in the source's append-if-missing fold. -/
theorem mem_foldl_appendIfMissing (t : String) (l base : List String) :
    (t ∈ l.foldl (fun acc tr => if tr ∈ acc then acc else acc ++ [tr]) base) ↔
      t ∈ base ∨ t ∈ l := by
  induction l generalizing base with
  | nil => simp
  | cons a l ih =>
    simp only [List.foldl_cons, ih, List.mem_cons]
    by_cases ha : a ∈ base
    · simp only [if_pos ha]
      constructor
      · rintro (h | h)
        · exact Or.inl h
        · exact Or.inr (Or.inr h)
      · rintro (h | h | h)
        · exact Or.inl h
        · exact Or.inl (h ▸ ha)
        · exact Or.inr h
    · simp only [if_neg ha, List.mem_append, List.mem_singleton]
      constructor
      · rintro ((h | h) | h)
        · exact Or.inl h
        · exact Or.inr (Or.inl h)
        · exact Or.inr (Or.inr h)
      · rintro (h | h | h)
        · exact Or.inl (Or.inl h)
        · exact Or.inl (Or.inr h)
        · exact Or.inr h

/-- Membership in `display_translations`: the selection, plus the
matching translations exactly when both broad flags are set. -/
theorem mem_augmentDisplay (t : String) (selected matching : List String)
    (bs br : Bool) :
    t ∈ augmentDisplay selected matching bs br ↔
      t ∈ selected ∨ (bs = true ∧ br = true ∧ t ∈ matching) := by
  unfold augmentDisplay
  rcases bs <;> rcases br <;>
    simp [mem_foldl_appendIfMissing]

/-- Every hit of the search walk carries the display list built by
`augmentDisplay` from its own matching set. -/
theorem hit_display_structure (dl : DataLoader)
    (ss sa se ea kw : String) (selected : List String) (bs br : Bool) (hit : Hit)
    (h : hit ∈ searchRange dl ss sa se ea kw selected bs br) :
    hit.display = augmentDisplay selected hit.matching bs br := by
  unfold searchRange at h
  rw [List.mem_flatMap] at h
  obtain ⟨num, -, h⟩ := h
  unfold chapterHits at h
  dsimp only [] at h
  split at h
  · simp at h
  · simp only [List.mem_filterMap] at h
    obtain ⟨a, -, h⟩ := h
    unfold processAyah at h
    dsimp only [] at h
    repeat' split at h
    all_goals first
      | (cases h; rfl)
      | cases h

/-- C4: for every hit of a search, a translation is in the hit's display
set iff it is selected, or both `broad_search` and `broad_results` are
set and it is one of the hit's matching translations.  In particular with
`broad_search` and not `broad_results`, only selected translations are
displayed. -/
theorem display_set_characterisation (dl : DataLoader)
    (ss sa se ea kw : String) (selected : List String) (bs br : Bool) (hit : Hit)
    (h : hit ∈ searchRange dl ss sa se ea kw selected bs br) (t : String) :
    t ∈ hit.display ↔ t ∈ selected ∨ (bs = true ∧ br = true ∧ t ∈ hit.matching) := by
  rw [hit_display_structure dl ss sa se ea kw selected bs br hit h]
  exact mem_augmentDisplay t selected hit.matching bs br

/-- The verse-3 hit of the broad fixture search: the verse matches only
through the unselected translation `T2`. -/
def hitC4 : Hit :=
  { surah := "1", ayah := "3", display := ["T1", "T2"],
    entries := [("T2", "the crescent moons shine")], matching := ["T2"] }

/-- C4 witness: with both broad flags set, the unselected matching
translation `T2` is in the display set of the hit it produced. -/
theorem display_set_characterisation_witness :
    "T2" ∈ hitC4.display ↔
      "T2" ∈ ["T1"] ∨ (true = true ∧ true = true ∧ "T2" ∈ hitC4.matching) :=
  display_set_characterisation fxSearch "1" "1" "1" "3" "crescent moons" ["T1"]
    true true hitC4 (by decide) "T2"

/-- C10: when the in-memory notes overlay is empty, `save_notes` returns
before writing: the persisted file is unchanged, so the next load still
sees the old document. -/
theorem save_notes_empty_keeps_file (notes : List (String × String))
    (fs : Option NotesDoc) (dl : DataLoader) (h : notes = []) :
    save_notes_fs notes fs = fs ∧
      load_notes_fs (save_notes_fs notes fs) dl = load_notes_fs fs dl := by
  subst h
  simp [save_notes_fs]

/-- C10 witness: deleting the last note and saving leaves the previously
persisted note on disk. -/
theorem save_notes_empty_keeps_file_witness :
    save_notes_fs [] (some [("1", [("1", "old note")])]) =
      some [("1", [("1", "old note")])] :=
  (save_notes_empty_keeps_file [] (some [("1", [("1", "old note")])])
      ⟨[], [], []⟩ rfl).1

/-! ## Decimal round-trip lemmas -/

theorem toList_mk (cs : List Char) : (String.mk cs).toList = cs := rfl

theorem digitVal_digitChar (d : Nat) (h : d < 10) : digitVal (digitChar d) = d := by
  interval_cases d <;> decide

theorem natOfDigits_cons_eq (c : Char) (l : List Char) :
    natOfDigits (c :: l) = l.foldl (fun acc d => 10 * acc + digitVal d) (digitVal c) := by
  simp [natOfDigits]

theorem natOfDigits_append_digit (l : List Char) (c : Char) :
    natOfDigits (l ++ [c]) = 10 * natOfDigits l + digitVal c := by
  simp [natOfDigits, List.foldl_append]

theorem natOfDigits_natToStrAux (fuel n : Nat) (h : n < fuel) :
    natOfDigits (natToStrAux fuel n) = n := by
  induction fuel generalizing n with
  | zero => omega
  | succ fuel ih =>
    by_cases h10 : n < 10
    · simp only [natToStrAux, if_pos h10, natOfDigits, List.foldl_cons, List.foldl_nil]
      rw [digitVal_digitChar n h10]
      omega
    · have hdiv : n / 10 < n := Nat.div_lt_self (by omega) (by omega)
      simp only [natToStrAux, if_neg h10]
      rw [natOfDigits_append_digit, ih (n / 10) (by omega),
        digitVal_digitChar (n % 10) (Nat.mod_lt n (by omega))]
      omega

/-- `int(str(n)) = n`: the decimal rendering round-trips. -/
theorem natOfStr_natToStr (n : Nat) : natOfStr (natToStr n) = n := by
  have h := natOfDigits_natToStrAux (n + 1) n (Nat.lt_succ_self n)
  simpa [natOfStr, natToStr, toList_mk] using h

/-! ## `listMax` lemmas -/

theorem le_foldl_max_init (acc : Nat) (l : List Nat) : acc ≤ l.foldl max acc := by
  induction l generalizing acc with
  | nil => exact Nat.le_refl acc
  | cons x l ih => exact Nat.le_trans (Nat.le_max_left acc x) (ih (max acc x))

theorem le_listMax_of_mem {a : Nat} {l : List Nat} (h : a ∈ l) : a ≤ listMax l := by
  unfold listMax
  generalize 0 = acc
  induction l generalizing acc with
  | nil => cases h
  | cons x l ih =>
    rcases List.mem_cons.mp h with h | h
    · subst h
      exact Nat.le_trans (Nat.le_max_right acc a) (le_foldl_max_init _ l)
    · exact ih h _

/-! ## Grammar scanner lemmas -/

theorem takeDigits_all (ds : List Char) (h : ∀ c ∈ ds, c.isDigit = true) :
    takeDigits ds = (ds, []) := by
  induction ds with
  | nil => rfl
  | cons c cs ih =>
    have hc : c.isDigit = true := h c (List.mem_cons_self c cs)
    simp only [takeDigits, if_pos hc, ih fun d hd => h d (List.mem_cons_of_mem c hd)]

theorem takeDigits_append (ds : List Char) (c : Char) (r : List Char)
    (h : ∀ d ∈ ds, d.isDigit = true) (hc : c.isDigit = false) :
    takeDigits (ds ++ c :: r) = (ds, c :: r) := by
  induction ds with
  | nil => simp [takeDigits, hc]
  | cons d cs ih =>
    have hd : d.isDigit = true := h d (List.mem_cons_self d cs)
    simp only [List.cons_append, takeDigits, if_pos hd, List.append_eq,
      ih fun x hx => h x (List.mem_cons_of_mem d hx)]

/-- An all-digits string matches the first grammar form. -/
theorem matchForm_singleSurah (n : List Char) (hn : n ≠ [])
    (hnd : ∀ c ∈ n, c.isDigit = true) :
    matchForm n = some (RefForm.singleSurah n) := by
  unfold matchForm form1
  simp [takeDigits_all n hnd, hn]

/-- A `N.V` string matches the third grammar form. -/
theorem matchForm_verseSingle (n v : List Char) (hn : n ≠ [])
    (hnd : ∀ c ∈ n, c.isDigit = true) (hv : v ≠ [])
    (hvd : ∀ c ∈ v, c.isDigit = true) :
    matchForm (n ++ '.' :: v) = some (RefForm.verseSingle n v) := by
  have h1 : takeDigits (n ++ '.' :: v) = (n, '.' :: v) :=
    takeDigits_append n '.' v hnd (by decide)
  unfold matchForm form1 form2 form3
  simp [h1, takeDigits_all v hvd, hn, hv]

/-- A `N.V-E` string matches the fourth grammar form. -/
theorem matchForm_verseToAyah (n v e : List Char) (hn : n ≠ [])
    (hnd : ∀ c ∈ n, c.isDigit = true) (hv : v ≠ [])
    (hvd : ∀ c ∈ v, c.isDigit = true) (he : e ≠ [])
    (hed : ∀ c ∈ e, c.isDigit = true) :
    matchForm (n ++ '.' :: (v ++ '-' :: e)) = some (RefForm.verseToAyah n v e) := by
  have h1 : takeDigits (n ++ '.' :: (v ++ '-' :: e)) = (n, '.' :: (v ++ '-' :: e)) :=
    takeDigits_append n '.' (v ++ '-' :: e) hnd (by decide)
  have h2 : takeDigits (v ++ '-' :: e) = (v, '-' :: e) :=
    takeDigits_append v '-' e hvd (by decide)
  unfold matchForm form1 form2 form3 form4
  simp [h1, h2, takeDigits_all e hed, hn, hv, he]

/-- C1: for a reference `N.V-E` the end marker `E` is disambiguated by
magnitude: when `E ≤ N` it is an end verse of chapter `N`, giving
`(N,V)-(N,E)`; when `E > N` it is an end chapter, giving
`(N,V)-(E, last-verse-of-E)` with the last verse derived from the
corpus. -/
theorem ambiguous_end_marker (dl : DataLoader) (n v e : List Char)
    (hn : n ≠ []) (hnd : ∀ c ∈ n, c.isDigit = true)
    (hv : v ≠ []) (hvd : ∀ c ∈ v, c.isDigit = true)
    (he : e ≠ []) (hed : ∀ c ∈ e, c.isDigit = true) :
    (natOfDigits e ≤ natOfDigits n →
      containsKey dl.surahs (String.mk n) = true →
      parse_reference dl (String.mk (n ++ '.' :: (v ++ '-' :: e))) =
        Except.ok (String.mk n, String.mk v, String.mk n, String.mk e)) ∧
    (natOfDigits n < natOfDigits e →
      containsKey dl.surahs (String.mk n) = true →
      containsKey dl.surahs (String.mk e) = true →
      parse_reference dl (String.mk (n ++ '.' :: (v ++ '-' :: e))) =
        Except.ok (String.mk n, String.mk v, String.mk e,
          natToStr (maxAyah dl (String.mk e)))) := by
  have hm := matchForm_verseToAyah n v e hn hnd hv hvd he hed
  constructor
  · intro hle hck
    simp [parse_reference, toList_mk, hm, hle, checkChapters, hck]
  · intro hlt hckn hcke
    simp [parse_reference, toList_mk, hm, Nat.not_le.mpr hlt, checkChapters,
      endAyahText, hckn, hcke]

/-- C1 witness: on the fixture, `E = 2 ≤ N = 3` resolves to an end verse
of chapter 3, and `E = 10 > N = 3` resolves to end chapter 10 with its
last corpus verse 4. -/
theorem ambiguous_end_marker_witness :
    parse_reference fxRef "3.5-2" = Except.ok ("3", "5", "3", "2") ∧
      parse_reference fxRef "3.5-10" = Except.ok ("3", "5", "10", "4") := by
  constructor
  · exact (ambiguous_end_marker fxRef ['3'] ['5'] ['2'] (by decide) (by decide)
      (by decide) (by decide) (by decide) (by decide)).1 (by decide) (by decide)
  · exact (ambiguous_end_marker fxRef ['3'] ['5'] ['1', '0'] (by decide) (by decide)
      (by decide) (by decide) (by decide) (by decide)).2 (by decide) (by decide) (by decide)

/-- C6 counterexample: the resolver performs no ordering check — the
spec's own example `3.5-2` resolves to start `(3,5)` and end `(3,2)`,
which is not `start ≤ end` lexicographically. -/
theorem range_order_counterexample :
    parse_reference fxRef "3.5-2" = Except.ok ("3", "5", "3", "2") ∧
      rangeStartLE ("3", "5", "3", "2") = false :=
  ⟨rfl, rfl⟩

/-- C6 amended: ranges produced from the single-chapter forms `N` and
`N.V` (`V ≠ "0"`) do satisfy `start ≤ end` lexicographically (the corpus
verse numbers being at least 1); the resolver does not enforce the
ordering for the other forms. -/
theorem single_chapter_range_ordered (dl : DataLoader) (n v : List Char)
    (hn : n ≠ []) (hnd : ∀ c ∈ n, c.isDigit = true)
    (hv : v ≠ []) (hvd : ∀ c ∈ v, c.isDigit = true)
    (hck : containsKey dl.surahs (String.mk n) = true)
    (hwf : ∀ a ∈ ayahsOf dl (String.mk n), 1 ≤ natOfStr a)
    (hane : ayahsOf dl (String.mk n) ≠ []) :
    (parse_reference dl (String.mk n) =
        Except.ok (String.mk n, "1", String.mk n, natToStr (maxAyah dl (String.mk n))) ∧
      rangeStartLE
        (String.mk n, "1", String.mk n, natToStr (maxAyah dl (String.mk n))) = true) ∧
    (String.mk v ≠ "0" →
      parse_reference dl (String.mk (n ++ '.' :: v)) =
        Except.ok (String.mk n, String.mk v, String.mk n, String.mk v) ∧
      rangeStartLE (String.mk n, String.mk v, String.mk n, String.mk v) = true) := by
  have hmax : 1 ≤ maxAyah dl (String.mk n) := by
    rcases hl : ayahsOf dl (String.mk n) with _ | ⟨x, rest⟩
    · exact absurd hl hane
    · have hx : 1 ≤ natOfStr x := hwf x (by rw [hl]; exact List.mem_cons_self x rest)
      have hmem : natOfStr x ∈ (ayahsOf dl (String.mk n)).map natOfStr := by
        rw [hl]
        exact List.mem_map_of_mem natOfStr (List.mem_cons_self x rest)
      have := le_listMax_of_mem hmem
      unfold maxAyah
      omega
  constructor
  · constructor
    · simp [parse_reference, toList_mk, matchForm_singleSurah n hn hnd, checkChapters,
        hck, endAyahText]
    · simp [rangeStartLE, natOfStr_natToStr, show natOfStr "1" = 1 from rfl, hmax]
  · intro hv0
    constructor
    · simp [parse_reference, toList_mk, matchForm_verseSingle n v hn hnd hv hvd,
        hv0, checkChapters, hck]
    · simp [rangeStartLE]

/-- C6 amended witness: on the fixture, `3` and `3.5` both resolve to
ordered ranges. -/
theorem single_chapter_range_ordered_witness :
    (parse_reference fxRef "3" = Except.ok ("3", "1", "3", "7") ∧
      rangeStartLE ("3", "1", "3", "7") = true) ∧
    (parse_reference fxRef "3.5" = Except.ok ("3", "5", "3", "5") ∧
      rangeStartLE ("3", "5", "3", "5") = true) := by
  have H := single_chapter_range_ordered fxRef ['3'] ['5'] (by decide) (by decide)
    (by decide) (by decide) (by decide) (by decide) (by decide)
  exact ⟨⟨H.1.1, H.1.2⟩, ⟨(H.2 (by decide)).1, (H.2 (by decide)).2⟩⟩

/-- `checkChapters` never reports a format error. -/
theorem checkChapters_not_invalid (dl : DataLoader) (ss sa se ea : String) :
    checkChapters dl ss sa se ea ≠ Except.error RefError.invalidFormat := by
  unfold checkChapters
  split <;> simp

/-- `checkChapters` reports a missing chapter exactly when one of the two
endpoint chapters is absent. -/
theorem checkChapters_notfound_iff (dl : DataLoader) (ss sa se ea : String) :
    (∃ err, checkChapters dl ss sa se ea = Except.error err ∧ isNotFoundErr err = true) ↔
      (containsKey dl.surahs ss && containsKey dl.surahs se) = false := by
  rcases hss : containsKey dl.surahs ss <;> rcases hse : containsKey dl.surahs se <;>
    simp [checkChapters, hss, hse, isNotFoundErr]

/-- C7: resolution fails with the invalid-format error exactly when no
grammar form matches, and fails with a chapter-not-found error exactly
when a form matches but one of the two endpoint chapters it names is
absent from the corpus (so a range naming one valid and one invalid
chapter fails as a whole). -/
theorem resolve_error_classification (dl : DataLoader) (ref : String) :
    (parse_reference dl ref = Except.error RefError.invalidFormat ↔
      matchForm ref.toList = none) ∧
    (∀ f, matchForm ref.toList = some f →
      ((∃ err, parse_reference dl ref = Except.error err ∧ isNotFoundErr err = true) ↔
        chaptersOK dl f = false)) := by
  rcases hm : matchForm ref.toList with _ | f
  · have hm2 : matchForm ref.data = none := hm
    constructor
    · simp [parse_reference, hm2]
    · intro f hf
      exact absurd hf (by simp)
  · have hm2 : matchForm ref.data = some f := hm
    constructor
    · constructor
      · intro herr
        exfalso
        unfold parse_reference at herr
        rw [hm] at herr
        cases f with
        | verseSingle n u =>
          dsimp only [] at herr
          split at herr
          · split at herr
            · exact checkChapters_not_invalid dl _ _ _ _ herr
            · simp at herr
          · exact checkChapters_not_invalid dl _ _ _ _ herr
        | verseToAyah n u e =>
          dsimp only [] at herr
          split at herr
          · exact checkChapters_not_invalid dl _ _ _ _ herr
          · exact checkChapters_not_invalid dl _ _ _ _ herr
        | singleSurah n => exact checkChapters_not_invalid dl _ _ _ _ herr
        | surahRange n m => exact checkChapters_not_invalid dl _ _ _ _ herr
        | surahToVerse n m w => exact checkChapters_not_invalid dl _ _ _ _ herr
        | verseRange n u m w => exact checkChapters_not_invalid dl _ _ _ _ herr
      · intro h
        exact absurd h (by simp)
    · intro f' hf'
      injection hf' with hff
      subst hff
      unfold parse_reference
      rw [hm]
      cases f with
      | singleSurah n =>
        simp only [chaptersOK, formChapters]
        exact checkChapters_notfound_iff dl _ _ _ _
      | surahRange n m =>
        simp only [chaptersOK, formChapters]
        exact checkChapters_notfound_iff dl _ _ _ _
      | verseSingle n u =>
        dsimp only []
        by_cases h0 : String.mk u = "0"
        · rw [if_pos h0]
          rcases hck : containsKey dl.surahs (String.mk n)
          · rw [if_neg (by simp [hck])]
            constructor
            · intro _
              simp [chaptersOK, formChapters, hck]
            · intro _
              exact ⟨RefError.surahNotFound (String.mk n), rfl, rfl⟩
          · rw [if_pos rfl]
            simp only [chaptersOK, formChapters]
            exact checkChapters_notfound_iff dl _ _ _ _
        · rw [if_neg h0]
          simp only [chaptersOK, formChapters]
          exact checkChapters_notfound_iff dl _ _ _ _
      | verseToAyah n u e =>
        dsimp only []
        by_cases hcmp : natOfDigits e ≤ natOfDigits n
        · rw [if_pos hcmp]
          simp only [chaptersOK, formChapters, if_pos hcmp]
          exact checkChapters_notfound_iff dl _ _ _ _
        · rw [if_neg hcmp]
          simp only [chaptersOK, formChapters, if_neg hcmp]
          exact checkChapters_notfound_iff dl _ _ _ _
      | surahToVerse n m w =>
        simp only [chaptersOK, formChapters]
        exact checkChapters_notfound_iff dl _ _ _ _
      | verseRange n u m w =>
        simp only [chaptersOK, formChapters]
        exact checkChapters_notfound_iff dl _ _ _ _

/-- C7 witness: `999` names an absent chapter and fails with the
chapter-not-found error, while `abc` matches no grammar form and fails
with the invalid-format error. -/
theorem resolve_error_classification_witness :
    (∃ err, parse_reference fxRef "999" = Except.error err ∧ isNotFoundErr err = true) ∧
      parse_reference fxRef "abc" = Except.error RefError.invalidFormat := by
  constructor
  · exact ((resolve_error_classification fxRef "999").2
      (RefForm.singleSurah ['9', '9', '9']) (by decide)).mpr (by decide)
  · exact (resolve_error_classification fxRef "abc").1.mpr (by decide)

/-- C8: `previous` steps to `(c, v-1)` when `v > 1`, else to the last
verse of chapter `c-1` when `c > 1`, else `none`; `next` is symmetric
upward with its chapter bound hard-coded at 114; on a valid position they
return `none` exactly at the absolute first verse `(1,1)` and at the
absolute last verse `(114, last(114))` respectively, and they are mutual
inverses at interior points. -/
theorem navigation_prev_next (dl : DataLoader) (c v : Nat)
    (hc1 : 1 ≤ c) (hc2 : c ≤ 114) (hv1 : 1 ≤ v)
    (hv2 : v ≤ maxAyah dl (natToStr c)) :
    (get_previous_verse dl (natToStr c) (natToStr v) =
      (if 1 < v then some (natToStr c, natToStr (v - 1))
       else if 1 < c then
         some (natToStr (c - 1), natToStr (maxAyah dl (natToStr (c - 1))))
       else none)) ∧
    (get_next_verse dl (natToStr c) (natToStr v) =
      (if v < maxAyah dl (natToStr c) then some (natToStr c, natToStr (v + 1))
       else if c < 114 then some (natToStr (c + 1), "1")
       else none)) ∧
    (get_previous_verse dl (natToStr c) (natToStr v) = none ↔ c = 1 ∧ v = 1) ∧
    (get_next_verse dl (natToStr c) (natToStr v) = none ↔
      c = 114 ∧ v = maxAyah dl (natToStr c)) ∧
    (∀ p q, get_previous_verse dl (natToStr c) (natToStr v) = some (p, q) →
      get_next_verse dl p q = some (natToStr c, natToStr v)) ∧
    (∀ p q, get_next_verse dl (natToStr c) (natToStr v) = some (p, q) →
      get_previous_verse dl p q = some (natToStr c, natToStr v)) := by
  have hprev : get_previous_verse dl (natToStr c) (natToStr v) =
      (if 1 < v then some (natToStr c, natToStr (v - 1))
       else if 1 < c then
         some (natToStr (c - 1), natToStr (maxAyah dl (natToStr (c - 1))))
       else none) := by
    unfold get_previous_verse
    simp only [natOfStr_natToStr, gt_iff_lt]
  have hnext : get_next_verse dl (natToStr c) (natToStr v) =
      (if v < maxAyah dl (natToStr c) then some (natToStr c, natToStr (v + 1))
       else if c < 114 then some (natToStr (c + 1), "1")
       else none) := by
    unfold get_next_verse
    simp only [natOfStr_natToStr]
  refine ⟨hprev, hnext, ?_, ?_, ?_, ?_⟩
  · rw [hprev]
    by_cases h1 : 1 < v
    · rw [if_pos h1]
      simp
      omega
    · rw [if_neg h1]
      by_cases h2 : 1 < c
      · rw [if_pos h2]
        simp
        omega
      · rw [if_neg h2]
        simp
        omega
  · rw [hnext]
    by_cases h1 : v < maxAyah dl (natToStr c)
    · rw [if_pos h1]
      simp
      omega
    · rw [if_neg h1]
      by_cases h2 : c < 114
      · rw [if_pos h2]
        simp
        omega
      · rw [if_neg h2]
        simp
        omega
  · intro p q hpq
    rw [hprev] at hpq
    by_cases h1 : 1 < v
    · rw [if_pos h1] at hpq
      cases hpq
      unfold get_next_verse
      simp only [natOfStr_natToStr]
      rw [if_pos (by omega : v - 1 < maxAyah dl (natToStr c))]
      rw [show v - 1 + 1 = v by omega]
    · rw [if_neg h1] at hpq
      by_cases h2 : 1 < c
      · rw [if_pos h2] at hpq
        cases hpq
        unfold get_next_verse
        simp only [natOfStr_natToStr]
        rw [if_neg (by omega :
          ¬ maxAyah dl (natToStr (c - 1)) < maxAyah dl (natToStr (c - 1)))]
        rw [if_pos (by omega : c - 1 < 114)]
        rw [show c - 1 + 1 = c by omega, show v = 1 by omega]
        rfl
      · rw [if_neg h2] at hpq
        cases hpq
  · intro p q hpq
    rw [hnext] at hpq
    by_cases h1 : v < maxAyah dl (natToStr c)
    · rw [if_pos h1] at hpq
      cases hpq
      unfold get_previous_verse
      simp only [natOfStr_natToStr, gt_iff_lt]
      rw [if_pos (by omega : 1 < v + 1)]
      rw [show v + 1 - 1 = v by omega]
    · rw [if_neg h1] at hpq
      by_cases h2 : c < 114
      · rw [if_pos h2] at hpq
        cases hpq
        unfold get_previous_verse
        simp only [natOfStr_natToStr, gt_iff_lt, show natOfStr "1" = 1 from rfl]
        rw [if_neg (by omega : ¬ (1 : Nat) < 1)]
        rw [if_pos (by omega : 1 < c + 1)]
        rw [show c + 1 - 1 = c by omega, show v = maxAyah dl (natToStr c) by omega]
      · rw [if_neg h2] at hpq
        cases hpq

/-- C8 witness: stepping from verse (57, 2) of the 114-chapter fixture. -/
theorem navigation_prev_next_witness :
    get_previous_verse fx114 "57" "2" = some ("57", "1") ∧
      get_next_verse fx114 "57" "2" = some ("57", "3") := by
  have H := navigation_prev_next fx114 57 2 (by decide) (by decide) (by decide) (by decide)
  exact ⟨H.1.trans (by decide), H.2.1.trans (by decide)⟩

/-- With no matching translations, `display_translations` is exactly the
selection. -/
theorem augmentDisplay_nil (selected : List String) (bs br : Bool) :
    augmentDisplay selected [] bs br = selected := by
  unfold augmentDisplay
  split <;> rfl

/-- `rangeIncl a a = [a]` (`range(a, a + 1)`). -/
theorem rangeIncl_self (a : Nat) : rangeIncl a a = [a] := by
  simp [rangeIncl, show a + 1 - a = 1 by omega,
    show List.range 1 = [0] from rfl]

/-- C5 counterexample: `1.5` resolves to the degenerate range
`(1,5)-(1,5)` on the fixture (whose chapter 1 has only 3 verses), but the
search yields no hit at all rather than exactly one. -/
theorem single_verse_hit_counterexample :
    parse_reference fxSearch "1.5" = Except.ok ("1", "5", "1", "5") ∧
      searchRange fxSearch "1" "5" "1" "5" "crescent" ["T1"] false false = [] :=
  ⟨rfl, rfl⟩

/-- C5 amended: a degenerate (single-verse) range search yields exactly
one hit regardless of the keyword — the keyword is never consulted —
provided the verse exists in the corpus and at least one selected
translation has text for it; otherwise it yields no hit. -/
theorem single_verse_exact_hit (dl : DataLoader) (ss sa kw : String)
    (selected : List String) (bs br : Bool)
    (smap : List (String × List (String × String)))
    (vtexts : List (String × String))
    (hss : natToStr (natOfStr ss) = ss) (hsa : natToStr (natOfStr sa) = sa)
    (h1 : alookup dl.verses ss = some smap)
    (h2 : alookup smap sa = some vtexts)
    (h3 : ∃ tr ∈ selected, (alookup vtexts tr).isSome = true) :
    (searchRange dl ss sa ss sa kw selected bs br).length = 1 := by
  have hentne :
      selected.filterMap (fun tr => (alookup vtexts tr).map fun t => (tr, t)) ≠ [] := by
    obtain ⟨tr, htr, hsome⟩ := h3
    intro hnil
    rcases ho : alookup vtexts tr with _ | t
    · rw [ho] at hsome
      cases hsome
    · have hf := List.filterMap_eq_nil_iff.mp hnil tr htr
      rw [ho] at hf
      cases hf
  have hp : processAyah (compileKeyword kw) (decide (kw ≠ "")) true
      (if bs = true then dl.translations else selected) selected bs br ss smap
      (natOfStr sa) =
      some ⟨ss, sa, selected,
        selected.filterMap (fun tr => (alookup vtexts tr).map fun t => (tr, t)), []⟩ := by
    unfold processAyah
    dsimp only []
    rw [hsa, h2]
    dsimp only []
    simp only [augmentDisplay_nil, reduceIte]
    rw [if_pos hentne]
  have hself : (ss == ss && sa == sa) = true := by simp
  unfold searchRange
  dsimp only []
  rw [hself, rangeIncl_self]
  rw [List.flatMap_cons, List.flatMap_nil, List.append_nil]
  unfold chapterHits
  dsimp only []
  rw [hss, h1]
  dsimp only []
  rw [if_pos rfl, if_pos rfl, rangeIncl_self]
  rw [List.filterMap_cons, hp]
  rfl

/-- C5 amended witness: the single verse `1.2` of the fixture is returned
as exactly one hit even though the keyword does not occur in it. -/
theorem single_verse_exact_hit_witness :
    (searchRange fxSearch "1" "2" "1" "2" "zzz-no-such-word" ["T1"] false false).length =
      1 :=
  single_verse_exact_hit fxSearch "1" "2" "zzz-no-such-word" ["T1"] false false
    (fxSearch.verses.head!.2) [("T1", "crescenting moonscape")]
    (by decide) (by decide) (by decide) (by decide) ⟨"T1", by decide, by decide⟩

/-! ## Association-list lemmas for the notes round trip -/

theorem alookup_setAssoc_self {α : Type} (l : List (String × α)) (k : String) (v : α) :
    alookup (setAssoc l k v) k = some v := by
  induction l with
  | nil => simp [setAssoc, alookup]
  | cons p rest ih =>
    by_cases h : k = p.1
    · simp [setAssoc, alookup, h]
    · simp only [setAssoc, if_neg h, alookup, if_neg h]
      exact ih

theorem alookup_setAssoc_ne {α : Type} (l : List (String × α)) (k k' : String) (v : α)
    (h : k' ≠ k) : alookup (setAssoc l k v) k' = alookup l k' := by
  induction l with
  | nil => simp [setAssoc, alookup, h]
  | cons p rest ih =>
    by_cases hk : k = p.1
    · subst hk
      simp [setAssoc, alookup, h, if_neg h]
    · simp only [setAssoc, if_neg hk, alookup]
      by_cases hk' : k' = p.1
      · simp [hk']
      · simp only [if_neg hk']
        exact ih

theorem alookup_append {α : Type} (l l' : List (String × α)) (k : String) :
    alookup (l ++ l') k =
      (match alookup l k with
       | some v => some v
       | none => alookup l' k) := by
  induction l with
  | nil => simp [alookup]
  | cons p rest ih =>
    by_cases h : k = p.1
    · simp [alookup, h]
    · simp only [List.cons_append, alookup, if_neg h]
      exact ih

theorem alookup_cons {α : Type} (p : String × α) (l : List (String × α)) (k : String) :
    alookup (p :: l) k = (if k = p.1 then some p.2 else alookup l k) := rfl

theorem mem_insertByNum {α : Type} (x p : String × α) (l : List (String × α)) :
    x ∈ insertByNum p l ↔ x = p ∨ x ∈ l := by
  induction l with
  | nil => simp [insertByNum]
  | cons q rest ih =>
    unfold insertByNum
    split
    · simp
    · simp only [List.mem_cons, ih]
      tauto

theorem perm_insertByNum {α : Type} (p : String × α) (l : List (String × α)) :
    (insertByNum p l).Perm (p :: l) := by
  induction l with
  | nil => simp [insertByNum]
  | cons q rest ih =>
    unfold insertByNum
    split
    · exact List.Perm.refl _
    · exact (List.Perm.cons q ih).trans (List.Perm.swap p q rest)

theorem perm_sortByNum {α : Type} (l : List (String × α)) :
    (sortByNum l).Perm l := by
  induction l with
  | nil => simp [sortByNum]
  | cons p rest ih =>
    unfold sortByNum
    simp only [List.foldr_cons]
    exact (perm_insertByNum p _).trans (List.Perm.cons p ih)

theorem alookup_mem {α : Type} {l : List (String × α)} {k : String} {x : α}
    (h : alookup l k = some x) : (k, x) ∈ l := by
  induction l with
  | nil => cases h
  | cons p rest ih =>
    unfold alookup at h
    split at h
    · cases h
      rename_i heq
      subst heq
      exact List.mem_cons_self _ _
    · exact List.mem_cons_of_mem p (ih h)

theorem alookup_eq_some_of_mem {α : Type} {l : List (String × α)} {k : String} {x : α}
    (hnd : (l.map Prod.fst).Nodup) (hm : (k, x) ∈ l) : alookup l k = some x := by
  induction l with
  | nil => cases hm
  | cons p rest ih =>
    rw [List.map_cons, List.nodup_cons] at hnd
    rcases List.mem_cons.mp hm with h | h
    · subst h
      simp [alookup]
    · have hmap : k ∈ rest.map Prod.fst := List.mem_map_of_mem Prod.fst h
      have hk : k ≠ p.1 := by
        intro hkp
        exact hnd.1 (hkp ▸ hmap)
      simp only [alookup, if_neg hk]
      exact ih hnd.2 h

theorem alookup_sortByNum {α : Type} (l : List (String × α)) (k : String)
    (hnd : (l.map Prod.fst).Nodup) : alookup (sortByNum l) k = alookup l k := by
  rcases h : alookup l k with _ | x
  · rcases h2 : alookup (sortByNum l) k with _ | y
    · rfl
    · have hy : (k, y) ∈ l := (perm_sortByNum l).mem_iff.mp (alookup_mem h2)
      have := alookup_eq_some_of_mem hnd hy
      rw [h] at this
      cases this
  · have hm : (k, x) ∈ sortByNum l := (perm_sortByNum l).mem_iff.mpr (alookup_mem h)
    have hnds : ((sortByNum l).map Prod.fst).Nodup :=
      (((perm_sortByNum l).map Prod.fst).nodup_iff).mpr hnd
    exact alookup_eq_some_of_mem hnds hm

theorem alookup_map_value {α β : Type} (l : List (String × α)) (g : α → β) (k : String) :
    alookup (l.map fun p => (p.1, g p.2)) k = (alookup l k).map g := by
  induction l with
  | nil => simp [alookup]
  | cons p rest ih =>
    by_cases h : k = p.1
    · simp [alookup, h]
    · simp only [List.map_cons, alookup, if_neg h]
      exact ih

/-! ## Note-key splitting lemmas -/

theorem toList_append (s t : String) : (s ++ t).toList = s.toList ++ t.toList := rfl

theorem splitRef_append (c v : List Char) (hc : '.' ∉ c) (hv : '.' ∉ v) :
    splitRef (c ++ '.' :: v) = some (c, v) := by
  induction c with
  | nil =>
    show splitRef ('.' :: v) = some ([], v)
    unfold splitRef
    rw [if_pos rfl, if_neg hv]
  | cons d cs ih =>
    have hd : d ≠ '.' := fun h => hc (h ▸ List.mem_cons_self d cs)
    have hcs : '.' ∉ cs := fun h => hc (List.mem_cons_of_mem d h)
    simp only [List.cons_append, splitRef, if_neg hd, List.append_eq, ih hcs]

theorem splitRef_some (cs a b : List Char) (h : splitRef cs = some (a, b)) :
    cs = a ++ '.' :: b := by
  induction cs generalizing a with
  | nil => cases h
  | cons c rest ih =>
    unfold splitRef at h
    split at h
    · split at h
      · cases h
      · cases h
        rename_i hdot _
        subst hdot
        rfl
    · rename_i hdot
      rcases hs : splitRef rest with _ | ⟨pre, post⟩
      · rw [hs] at h
        cases h
      · rw [hs] at h
        cases h
        simpa using ih pre hs

/-! ## Grouped-notes lookup lemmas -/

/-- Lookup in the nested chapter→verse→text grouping. -/
def docLookup (m : List (String × List (String × String))) (s a : String) :
    Option String :=
  match alookup m s with
  | none => none
  | some inner => alookup inner a

theorem docLookup_insertGrouped (m : List (String × List (String × String)))
    (s a t s' a' : String) :
    docLookup (insertGrouped m s a t) s' a' =
      if s' = s ∧ a' = a then some t else docLookup m s' a' := by
  unfold insertGrouped
  by_cases hs : s' = s
  · subst hs
    rcases h : alookup m s' with _ | inner
    · rw [docLookup, alookup_setAssoc_self]
      by_cases ha : a' = a
      · simp [ha, alookup]
      · simp [docLookup, alookup, ha, h, if_neg ha]
    · rw [docLookup, alookup_setAssoc_self]
      by_cases ha : a' = a
      · subst ha
        simp [alookup_setAssoc_self]
      · dsimp only []
        rw [alookup_setAssoc_ne _ _ _ _ ha]
        simp [ha, docLookup, h]
  · rcases h : alookup m s with _ | inner
    · rw [docLookup, alookup_setAssoc_ne _ _ _ _ hs]
      simp [hs, docLookup]
    · rw [docLookup, alookup_setAssoc_ne _ _ _ _ hs]
      simp [hs, docLookup]

/-- Well-formedness of the grouped notes: unique chapter keys and unique
verse keys per chapter. -/
def GroupedWF (m : List (String × List (String × String))) : Prop :=
  (m.map Prod.fst).Nodup ∧ ∀ p ∈ m, (p.2.map Prod.fst).Nodup

theorem keys_setAssoc {α : Type} (l : List (String × α)) (k : String) (v : α) :
    (setAssoc l k v).map Prod.fst =
      (if k ∈ l.map Prod.fst then l.map Prod.fst else l.map Prod.fst ++ [k]) := by
  induction l with
  | nil => simp [setAssoc]
  | cons p rest ih =>
    by_cases h : k = p.1
    · subst h
      simp [setAssoc]
    · simp only [setAssoc, if_neg h, List.map_cons, ih, List.mem_cons]
      by_cases hm : k ∈ rest.map Prod.fst
      · simp [hm, h]
      · simp [hm, h]

theorem nodup_keys_setAssoc {α : Type} (l : List (String × α)) (k : String) (v : α)
    (hnd : (l.map Prod.fst).Nodup) : ((setAssoc l k v).map Prod.fst).Nodup := by
  rw [keys_setAssoc]
  split
  · exact hnd
  · rename_i hm
    simp only [List.nodup_append, List.nodup_cons]
    refine ⟨hnd, by simp, ?_⟩
    intro x hx
    simp only [List.mem_singleton]
    intro hxk
    exact hm (hxk ▸ hx)

theorem mem_setAssoc {α : Type} (l : List (String × α)) (k : String) (v : α)
    (p : String × α) (h : p ∈ setAssoc l k v) : p = (k, v) ∨ p ∈ l := by
  induction l with
  | nil =>
    simp [setAssoc] at h
    exact Or.inl h
  | cons q rest ih =>
    unfold setAssoc at h
    split at h
    · rcases List.mem_cons.mp h with h' | h'
      · exact Or.inl h'
      · exact Or.inr (List.mem_cons_of_mem q h')
    · rcases List.mem_cons.mp h with h' | h'
      · exact Or.inr (h' ▸ List.mem_cons_self q rest)
      · rcases ih h' with h'' | h''
        · exact Or.inl h''
        · exact Or.inr (List.mem_cons_of_mem q h'')

theorem groupedWF_insertGrouped (m : List (String × List (String × String)))
    (s a t : String) (hwf : GroupedWF m) : GroupedWF (insertGrouped m s a t) := by
  unfold insertGrouped
  rcases h : alookup m s with _ | inner
  · refine ⟨nodup_keys_setAssoc _ _ _ hwf.1, ?_⟩
    intro p hp
    rcases mem_setAssoc _ _ _ _ hp with h' | h'
    · subst h'
      simp
    · exact hwf.2 p h'
  · refine ⟨nodup_keys_setAssoc _ _ _ hwf.1, ?_⟩
    intro p hp
    rcases mem_setAssoc _ _ _ _ hp with h' | h'
    · subst h'
      exact nodup_keys_setAssoc _ _ _ (hwf.2 (s, inner) (alookup_mem h))
    · exact hwf.2 p h'

/-- The fold step of `groupNotes`. -/
def groupStep (acc : List (String × List (String × String))) (p : String × String) :
    List (String × List (String × String)) :=
  match splitRef p.1.toList with
  | some (s, a) => insertGrouped acc (String.mk s) (String.mk a) p.2
  | none => acc

theorem groupNotes_eq_foldl (notes : List (String × String)) :
    groupNotes notes = notes.foldl groupStep [] := rfl

theorem groupedWF_foldl (notes : List (String × String))
    (acc : List (String × List (String × String))) (hwf : GroupedWF acc) :
    GroupedWF (notes.foldl groupStep acc) := by
  induction notes generalizing acc with
  | nil => exact hwf
  | cons p rest ih =>
    rw [List.foldl_cons]
    refine ih _ ?_
    unfold groupStep
    split
    · exact groupedWF_insertGrouped _ _ _ _ hwf
    · exact hwf

/-- A fold step for a different note key leaves a lookup unchanged. -/
theorem groupFold_frame (notes : List (String × String))
    (acc : List (String × List (String × String))) (c v : String)
    (hnot : ∀ p ∈ notes, p.1 ≠ c ++ "." ++ v) :
    docLookup (notes.foldl groupStep acc) c v = docLookup acc c v := by
  induction notes generalizing acc with
  | nil => rfl
  | cons p rest ih =>
    rw [List.foldl_cons]
    rw [ih _ fun q hq => hnot q (List.mem_cons_of_mem p hq)]
    unfold groupStep
    rcases hs : splitRef p.1.toList with _ | ⟨s, a⟩
    · rfl
    · rw [docLookup_insertGrouped]
      rw [if_neg ?hne]
      case hne =>
        rintro ⟨rfl, rfl⟩
        refine hnot p (List.mem_cons_self p rest) ?_
        have hsplit := splitRef_some p.1.toList s a hs
        have : (String.mk s ++ "." ++ String.mk a).toList = p.1.toList := by
          rw [toList_append, toList_append, hsplit]
          simp [toList_mk]
        calc p.1 = String.mk p.1.toList := rfl
          _ = String.mk (String.mk s ++ "." ++ String.mk a).toList := by rw [this]
          _ = String.mk s ++ "." ++ String.mk a := rfl

/-- Folding the notes into the grouping records the note stored under the
key `c.v`. -/
theorem groupFold_hit (notes : List (String × String))
    (acc : List (String × List (String × String))) (c v t : String)
    (hcd : '.' ∉ c.toList) (hvd : '.' ∉ v.toList)
    (hmem : (c ++ "." ++ v, t) ∈ notes)
    (hnd : (notes.map Prod.fst).Nodup) :
    docLookup (notes.foldl groupStep acc) c v = some t := by
  induction notes generalizing acc with
  | nil => cases hmem
  | cons p rest ih =>
    rw [List.map_cons, List.nodup_cons] at hnd
    rw [List.foldl_cons]
    rcases List.mem_cons.mp hmem with h | h
    · have hkey : p.1 = c ++ "." ++ v := by rw [← h]
      have hnot : ∀ q ∈ rest, q.1 ≠ c ++ "." ++ v := by
        intro q hq hqe
        exact hnd.1 (hkey ▸ hqe ▸ List.mem_map_of_mem Prod.fst hq)
      rw [groupFold_frame rest _ c v hnot]
      unfold groupStep
      have hTL : (c ++ "." ++ v).toList = c.toList ++ '.' :: v.toList := by
        rw [toList_append, toList_append]
        simp
      have hsplit : splitRef p.1.toList = some (c.toList, v.toList) := by
        rw [hkey, hTL]
        exact splitRef_append c.toList v.toList hcd hvd
      rw [hsplit]
      rw [docLookup_insertGrouped]
      rw [if_pos ⟨rfl, rfl⟩]
      rw [← h]
    · exact ih _ h hnd.2

/-- The document written by `save_notes` holds the note under its chapter
and verse. -/
theorem buildDoc_lookup (notes : List (String × String)) (c v t : String)
    (hcd : '.' ∉ c.toList) (hvd : '.' ∉ v.toList)
    (hmem : (c ++ "." ++ v, t) ∈ notes)
    (hnd : (notes.map Prod.fst).Nodup) :
    docLookup (buildDoc notes) c v = some t := by
  have hg : docLookup (groupNotes notes) c v = some t := by
    rw [groupNotes_eq_foldl]
    exact groupFold_hit notes [] c v t hcd hvd hmem hnd
  have hwf : GroupedWF (groupNotes notes) := by
    rw [groupNotes_eq_foldl]
    exact groupedWF_foldl notes [] ⟨List.nodup_nil, by intro p hp; cases hp⟩
  unfold buildDoc docLookup
  rw [alookup_map_value, alookup_sortByNum _ _ hwf.1]
  unfold docLookup at hg
  rcases hi : alookup (groupNotes notes) c with _ | inner
  · rw [hi] at hg
    cases hg
  · rw [hi] at hg
    show alookup (sortByNum inner) v = some t
    rw [alookup_sortByNum _ _ (hwf.2 (c, inner) (alookup_mem hi))]
    exact hg

/-- The document written by `save_notes` is well formed: chapter keys and
per-chapter verse keys are unique. -/
theorem buildDoc_wf (notes : List (String × String)) : GroupedWF (buildDoc notes) := by
  have hwf : GroupedWF (groupNotes notes) := by
    rw [groupNotes_eq_foldl]
    exact groupedWF_foldl notes [] ⟨List.nodup_nil, by intro p hp; cases hp⟩
  constructor
  · have hkeys : (buildDoc notes).map Prod.fst = (sortByNum (groupNotes notes)).map Prod.fst := by
      unfold buildDoc
      rw [List.map_map]
      rfl
    rw [hkeys]
    exact (((perm_sortByNum (groupNotes notes)).map Prod.fst).nodup_iff).mpr hwf.1
  · intro p hp
    unfold buildDoc at hp
    rcases List.mem_map.mp hp with ⟨q, hq, hqe⟩
    have hqg : q ∈ groupNotes notes := (perm_sortByNum _).mem_iff.mp hq
    have : (q.2.map Prod.fst).Nodup := hwf.2 q hqg
    rw [← hqe]
    exact (((perm_sortByNum q.2).map Prod.fst).nodup_iff).mpr this

/-! ## Load-side lemmas -/

theorem lookupNote_ensureSurah (dl : DataLoader) (s c v : String) :
    lookupNote (ensureSurah dl s) c v = lookupNote dl c v := by
  unfold lookupNote ensureSurah
  dsimp only []
  by_cases h : containsKey dl.verses s = true
  · rw [if_pos h]
  · rw [if_neg h, alookup_append]
    rcases h2 : alookup dl.verses c with _ | smap
    · dsimp only []
      by_cases hcs : c = s
      · simp [alookup, hcs]
      · simp [alookup, hcs]
    · rfl

theorem lookupNote_addNote (dl : DataLoader) (s a u c v : String) :
    lookupNote (addNote dl s a u) c v =
      if c = s ∧ v = a then some (trimStr u) else lookupNote dl c v := by
  unfold lookupNote addNote
  dsimp only []
  by_cases hcs : c = s
  · subst hcs
    rw [alookup_setAssoc_self]
    dsimp only []
    by_cases hva : v = a
    · subst hva
      rw [alookup_setAssoc_self]
      dsimp only []
      rw [alookup_setAssoc_self, if_pos ⟨rfl, rfl⟩]
    · rw [alookup_setAssoc_ne _ _ _ _ hva, if_neg (by tauto)]
      rcases h2 : alookup dl.verses c with _ | smap
      · rfl
      · rfl
  · rw [alookup_setAssoc_ne _ _ _ _ hcs, if_neg (by tauto)]

theorem innerFold_frame (inner : List (String × String)) (dl : DataLoader) (s c v : String)
    (hnot : ∀ q ∈ inner, ¬(c = s ∧ v = q.1)) :
    lookupNote (inner.foldl (fun acc q => addNote acc s q.1 q.2) dl) c v =
      lookupNote dl c v := by
  induction inner generalizing dl with
  | nil => rfl
  | cons q rest ih =>
    rw [List.foldl_cons, ih _ fun r hr => hnot r (List.mem_cons_of_mem q hr)]
    rw [lookupNote_addNote, if_neg (hnot q (List.mem_cons_self q rest))]

theorem innerFold_hit (inner : List (String × String)) (dl : DataLoader) (s v t : String)
    (hnd : (inner.map Prod.fst).Nodup) (hl : alookup inner v = some t) :
    lookupNote (inner.foldl (fun acc q => addNote acc s q.1 q.2) dl) s v =
      some (trimStr t) := by
  induction inner generalizing dl with
  | nil => cases hl
  | cons q rest ih =>
    rw [List.map_cons, List.nodup_cons] at hnd
    rw [List.foldl_cons]
    by_cases hv : v = q.1
    · have hqt : q.2 = t := by
        unfold alookup at hl
        rw [if_pos hv] at hl
        cases hl
        rfl
      have hnot : ∀ r ∈ rest, ¬(s = s ∧ v = r.1) := by
        rintro r hr ⟨-, hvr⟩
        exact hnd.1 (hv ▸ hvr ▸ List.mem_map_of_mem Prod.fst hr)
      rw [innerFold_frame rest _ s s v hnot]
      rw [lookupNote_addNote, if_pos ⟨rfl, hv⟩, hqt]
    · have hl' : alookup rest v = some t := by
        rw [alookup_cons, if_neg hv] at hl
        exact hl
      exact ih _ hnd.2 hl'

theorem outerFold_frame (doc : NotesDoc) (dl : DataLoader) (c v : String)
    (hnot : ∀ p ∈ doc, p.1 ≠ c) :
    lookupNote
      (doc.foldl
        (fun acc p => p.2.foldl (fun acc2 q => addNote acc2 p.1 q.1 q.2) (ensureSurah acc p.1))
        dl) c v = lookupNote dl c v := by
  induction doc generalizing dl with
  | nil => rfl
  | cons p rest ih =>
    rw [List.foldl_cons, ih _ fun r hr => hnot r (List.mem_cons_of_mem p hr)]
    rw [innerFold_frame _ _ _ _ _ fun q hq hcv =>
      hnot p (List.mem_cons_self p rest) hcv.1.symm]
    exact lookupNote_ensureSurah dl p.1 c v

theorem outerFold_hit (doc : NotesDoc) (dl : DataLoader) (c v t : String)
    (hout : (doc.map Prod.fst).Nodup) (hinn : ∀ p ∈ doc, (p.2.map Prod.fst).Nodup)
    (hdoc : docLookup doc c v = some t) :
    lookupNote
      (doc.foldl
        (fun acc p => p.2.foldl (fun acc2 q => addNote acc2 p.1 q.1 q.2) (ensureSurah acc p.1))
        dl) c v = some (trimStr t) := by
  induction doc generalizing dl with
  | nil => cases hdoc
  | cons p rest ih =>
    rw [List.map_cons, List.nodup_cons] at hout
    rw [List.foldl_cons]
    by_cases hcp : c = p.1
    · have hl : alookup p.2 v = some t := by
        have h' : docLookup (p :: rest) c v = alookup p.2 v := by
          unfold docLookup
          rw [alookup_cons, if_pos hcp]
        rw [h'] at hdoc
        exact hdoc
      have hnot : ∀ r ∈ rest, r.1 ≠ c :=
        fun r hr he => hout.1 (hcp ▸ he ▸ List.mem_map_of_mem Prod.fst hr)
      rw [outerFold_frame rest _ c v hnot]
      subst hcp
      exact innerFold_hit p.2 _ p.1 v t (hinn p (List.mem_cons_self p rest)) hl
    · have hdoc' : docLookup rest c v = some t := by
        unfold docLookup at hdoc ⊢
        rw [alookup_cons, if_neg hcp] at hdoc
        exact hdoc
      exact ih _ hout.2 (fun r hr => hinn r (List.mem_cons_of_mem p hr)) hdoc'

/-- The translation-list fix-up of `load_notes` does not change the
stored verse texts. -/
theorem lookupNote_load_notes_doc (doc : NotesDoc) (dl : DataLoader) (c v : String) :
    lookupNote (load_notes_doc doc dl) c v =
      lookupNote
        (doc.foldl
          (fun acc p =>
            p.2.foldl (fun acc2 q => addNote acc2 p.1 q.1 q.2) (ensureSurah acc p.1))
          dl) c v := by
  unfold load_notes_doc
  dsimp only []
  split
  · rfl
  · rfl

/-- C9: a note saved for `(c, v)` round-trips — serialising the overlay
with `save_notes` and loading the document into a fresh corpus with
`load_notes` stores the identical text under the `"User Notes"`
pseudo-translation (note texts are stored stripped, so stripping is the
identity on them). -/
theorem notes_round_trip (notes : List (String × String)) (dl : DataLoader) (c v t : String)
    (hcd : '.' ∉ c.toList) (hvd : '.' ∉ v.toList)
    (hmem : (c ++ "." ++ v, t) ∈ notes)
    (hnd : (notes.map Prod.fst).Nodup)
    (ht : trimStr t = t) :
    ∃ doc, save_notes_fs notes none = some doc ∧
      lookupNote (load_notes_doc doc dl) c v = some t := by
  have hne : ¬(notes = []) := by
    intro h
    rw [h] at hmem
    cases hmem
  refine ⟨buildDoc notes, by simp [save_notes_fs, hne], ?_⟩
  have hb := buildDoc_lookup notes c v t hcd hvd hmem hnd
  have hwf := buildDoc_wf notes
  rw [lookupNote_load_notes_doc]
  rw [outerFold_hit (buildDoc notes) dl c v t hwf.1 hwf.2 hb]
  rw [ht]

/-- C9 witness: the note "my note" for verse (2, 255) survives a
save-and-reload round trip into an empty corpus. -/
theorem notes_round_trip_witness :
    ∃ doc, save_notes_fs [("2.255", "my note")] none = some doc ∧
      lookupNote (load_notes_doc doc ⟨[], [], []⟩) "2" "255" = some "my note" :=
  notes_round_trip [("2.255", "my note")] ⟨[], [], []⟩ "2" "255" "my note"
    (by decide) (by decide) (by decide) (by decide) (by decide)

end IA

